import Mathlib

set_option autoImplicit false

set_option linter.unusedSectionVars false

/-!
A verification of the dice-and-coins Monte Carlo notebook: drawable sources
(`Die`, `Coin`, `Counter`), the `Trial` accumulator with its pluggable source
selection, and the table utilities `dictsToTbl` and `norm`.  The `random`
module is modelled as an entropy stream of rationals in `[0, 1)`: each call to
the underlying `random.random()` consumes one stream value, and the current
cursor into the stream models the PRNG's mutable global state.
-/

namespace Coins

/-- A stream of raw outputs of the global PRNG: value `i` models the output of
the `i`-th call to `random.random()`. -/
abbrev Entropy : Type := ℕ → ℚ

/-- A stream is valid when every raw output lies in `[0, 1)`, as
`random.random()` guarantees. -/
def Entropy.Valid (ρ : Entropy) : Prop := ∀ i, 0 ≤ ρ i ∧ ρ i < 1

/-- Model of `random.randint(a, b)`: a uniform integer in `[a, b]`, obtained by
scaling one raw entropy value `u` to the `b + 1 - a` possible outcomes. -/
def randint (a b : ℕ) (u : ℚ) : ℕ := a + (⌊u * ((b : ℚ) + 1 - (a : ℚ))⌋).toNat

/-- Model of `random.uniform(a, b)`: `a + (b - a) * random()`. -/
def uniform (a b : ℚ) (u : ℚ) : ℚ := a + (b - a) * u

/-- Model of `random.choice(xs)`: the entry at a uniform index in `[0, len)`. -/
def choice {σ : Type} [Inhabited σ] (xs : List σ) (u : ℚ) : σ :=
  xs.getD (⌊u * (xs.length : ℚ)⌋).toNat default

/-- A drawable source: a name together with a `draw` that consumes entropy
starting at cursor `i` and returns one outcome and the advanced cursor. -/
structure Src (ν α : Type) where
  name : ν
  draw : Entropy → ℕ → α × ℕ

instance {ν α : Type} [Inhabited ν] [Inhabited α] : Inhabited (Src ν α) :=
  ⟨{ name := default, draw := fun _ i => (default, i) }⟩

/-- Class `Die(sides, name=None)`: the name defaults to `sides`, and `draw()`
returns `random.randint(1, self.sides)`. -/
def Die (sides : ℕ) (name : Option ℕ := none) : Src ℕ ℕ :=
  { name := name.getD sides
    draw := fun ρ i => (randint 1 sides (ρ i), i + 1) }

/-- Class `Coin(bias=0)`: named `FairCoin` when the bias is zero, else
`Coin:<bias>`; `draw()` returns `Heads` when `random.uniform(-1, 1) < bias`,
else `Tails`. -/
def Coin (bias : ℚ := 0) : Src String String :=
  { name := if bias = 0 then "FairCoin" else "Coin:" ++ toString bias
    draw := fun ρ i => (if uniform (-1) 1 (ρ i) < bias then "Heads" else "Tails", i + 1) }

/-- The loop inside `Counter.draw`: perform `n` sub-draws from `source`,
incrementing `total` for each sub-draw equal to `value`, starting at entropy
cursor `i`. -/
def Counter.loop {ν α : Type} [DecidableEq α] (source : Src ν α) (value : α)
    (ρ : Entropy) (total i : ℕ) : ℕ → ℕ × ℕ
  | 0 => (total, i)
  | n + 1 =>
    let r := source.draw ρ i
    Counter.loop source value ρ (if r.1 = value then total + 1 else total) r.2 n

/-- Class `Counter(source, value, nDraws)`: named after the wrapped source;
`draw()` returns how many of `nDraws` sub-draws from `source` equal `value`. -/
def Counter {ν α : Type} [DecidableEq α] (source : Src ν α) (value : α)
    (nDraws : ℕ) : Src ν ℕ :=
  { name := source.name
    draw := fun ρ i => Counter.loop source value ρ 0 i nDraws }

/-- A Python `dict`, modelled as an insertion-ordered association list.  All
dictionary access goes through `Dict.get?` / `Dict.set`. -/
abbrev Dict (κ β : Type) : Type := List (κ × β)

namespace Dict

variable {κ β : Type} [DecidableEq κ]

/-- Lookup (`d.get(k)` / `d[k]` / `k in d`): the value stored at the first
entry whose key is `k`. -/
def get? : Dict κ β → κ → Option β
  | [], _ => none
  | e :: rest, k => if e.1 = k then some e.2 else get? rest k

/-- Store (`d[k] = v`): overwrite the value at key `k` in place, or append a
fresh entry at the end, as Python dicts do. -/
def set : Dict κ β → κ → β → Dict κ β
  | [], k, v => [(k, v)]
  | e :: rest, k, v => if e.1 = k then (e.1, v) :: rest else e :: set rest k v

/-- `d.keys()`, in insertion order. -/
def keys (d : Dict κ β) : List κ := d.map Prod.fst

end Dict

/-- `Trial.__init__`: the accumulator `self.results` starts empty. -/
def Trial.init {ν α : Type} : Dict α (Dict ν ℕ) := []

/-- `Trial._add(name, result)`: create the inner dict when the outcome is
fresh, then bump the count of `name` inside it. -/
def Trial._add {ν α : Type} [DecidableEq ν] [DecidableEq α]
    (results : Dict α (Dict ν ℕ)) (name : ν) (result : α) : Dict α (Dict ν ℕ) :=
  let inner : Dict ν ℕ := (Dict.get? results result).getD []
  Dict.set results result (Dict.set inner name ((Dict.get? inner name).getD 0 + 1))

/-- `Trial.run(nDraws)`: repeat `nDraws` times — pick a source through the
subclass's `chooseSource`, draw from it, record the `(name, outcome)` pair.
Returns the final accumulator together with the final PRNG cursor. -/
def Trial.run {ν α : Type} [DecidableEq ν] [DecidableEq α]
    (chooseSource : Entropy → ℕ → Src ν α × ℕ) (ρ : Entropy)
    (results : Dict α (Dict ν ℕ)) (i : ℕ) : ℕ → Dict α (Dict ν ℕ) × ℕ
  | 0 => (results, i)
  | n + 1 =>
    let s := chooseSource ρ i
    let r := s.1.draw ρ s.2
    Trial.run chooseSource ρ (Trial._add results s.1.name r.1) r.2 n

/-- The `(source name, outcome)` pairs recorded by `Trial.run`, in draw order. -/
def Trial.drawList {ν α : Type} (chooseSource : Entropy → ℕ → Src ν α × ℕ)
    (ρ : Entropy) (i : ℕ) : ℕ → List (ν × α)
  | 0 => []
  | n + 1 =>
    let s := chooseSource ρ i
    let r := s.1.draw ρ s.2
    (s.1.name, r.1) :: Trial.drawList chooseSource ρ r.2 n

/-- Replay a list of recorded `(name, outcome)` pairs into an accumulator. -/
def Trial.record {ν α : Type} [DecidableEq ν] [DecidableEq α]
    (results : Dict α (Dict ν ℕ)) (ps : List (ν × α)) : Dict α (Dict ν ℕ) :=
  ps.foldl (fun d p => Trial._add d p.1 p.2) results

/-- `UniformSelectionTrial.chooseSource`: `random.choice(self.sources)`,
consuming one entropy value. -/
def UniformSelectionTrial.chooseSource {ν α : Type} [Inhabited ν] [Inhabited α]
    (sources : List (Src ν α)) (ρ : Entropy) (i : ℕ) : Src ν α × ℕ :=
  (choice sources (ρ i), i + 1)

/-- The state `Trial.run` can reach on a `UniformSelectionTrial`: the trial
object's own fields (`sources`, `results`) plus the global PRNG state (the
entropy cursor). -/
structure World (ν α : Type) where
  sources : List (Src ν α)
  results : Dict α (Dict ν ℕ)
  rng : ℕ

/-- `Trial.run` on a `UniformSelectionTrial`, acting on the whole visible
state. -/
def UniformSelectionTrial.run {ν α : Type} [DecidableEq ν] [DecidableEq α]
    [Inhabited ν] [Inhabited α] (ρ : Entropy) (w : World ν α) (nDraws : ℕ) :
    World ν α :=
  let r := Trial.run (UniformSelectionTrial.chooseSource w.sources) ρ w.results w.rng nDraws
  { sources := w.sources, results := r.1, rng := r.2 }

/-- `ret[ri, ci] = v` on a matrix stored as a list of rows. -/
def setCell (ar : List (List ℚ)) (r c : ℕ) (v : ℚ) : List (List ℚ) :=
  ar.set r ((ar.getD r []).set c v)

/-- `dictsToTbl(dd)`: a dense matrix of counts written into `np.zeros` (so
absent cells read as zero), together with the sorted row labels (outcomes) and
sorted column labels (source names). -/
def dictsToTbl {α ν : Type} [LinearOrder α] [LinearOrder ν] [DecidableEq α]
    [DecidableEq ν] (dd : Dict α (Dict ν ℕ)) : List (List ℚ) × List α × List ν :=
  let rowNames := (Dict.keys dd).mergeSort fun a b => decide (a ≤ b)
  let colNames :=
    ((dd.map fun e => Dict.keys e.2).flatten.dedup).mergeSort fun a b => decide (a ≤ b)
  let ret0 : List (List ℚ) := List.replicate rowNames.length (List.replicate colNames.length 0)
  let ret := dd.foldl
    (fun ret re =>
      re.2.foldl
        (fun ret ce =>
          setCell ret (List.indexOf re.1 rowNames) (List.indexOf ce.1 colNames) (ce.2 : ℚ))
        ret)
    ret0
  (ret, rowNames, colNames)

/-- `norm(ar)`: `ar / np.sum(ar, axis=1, keepdims=True)` — divide each row of
the matrix elementwise by that row's sum. -/
def norm (ar : List (List ℚ)) : List (List ℚ) :=
  ar.map fun row => row.map fun x => x / row.sum

/-- The number of draws recorded in one inner dict (one outcome row). -/
def innerTotal {ν : Type} (inner : Dict ν ℕ) : ℕ := (inner.map Prod.snd).sum

/-- The number of draws recorded in the whole accumulator. -/
def totalCount {ν α : Type} (results : Dict α (Dict ν ℕ)) : ℕ :=
  (results.map fun e => innerTotal e.2).sum

/-- The count recorded under `(outcome, name)` in the accumulator (0 when the
cell is absent). -/
def cellCount {ν α : Type} [DecidableEq ν] [DecidableEq α]
    (results : Dict α (Dict ν ℕ)) (result : α) (name : ν) : ℕ :=
  (Dict.get? ((Dict.get? results result).getD []) name).getD 0

/-- The number of draws recorded under one outcome (0 when the outcome is
absent from the accumulator). -/
def outcomeTotal {ν α : Type} [DecidableEq α] (results : Dict α (Dict ν ℕ))
    (o : α) : ℕ :=
  innerTotal ((Dict.get? results o).getD [])

/-- Keys are unique at both levels of the accumulator — the well-formedness
invariant every Python dict-of-dicts satisfies. -/
def DictInv {ν α : Type} (d : Dict α (Dict ν ℕ)) : Prop :=
  (Dict.keys d).Nodup ∧ ∀ e ∈ d, (Dict.keys e.2).Nodup

instance {ν α : Type} [DecidableEq ν] [DecidableEq α] (d : Dict α (Dict ν ℕ)) :
    Decidable (DictInv d) := by
  unfold DictInv; infer_instance

/-- Every inner dict of the accumulator is non-empty and stores only counts
of at least 1 — the invariant `Trial._add` maintains. -/
def PosInv {ν α : Type} (d : Dict α (Dict ν ℕ)) : Prop :=
  ∀ e ∈ d, e.2 ≠ [] ∧ ∀ q ∈ e.2, 1 ≤ q.2

instance {ν α : Type} [DecidableEq ν] [DecidableEq α] (d : Dict α (Dict ν ℕ)) :
    Decidable (PosInv d) := by
  unfold PosInv; infer_instance

/-- The row-writing loop of `dictsToTbl`, restricted to a single matrix row:
write each `(column key, count)` entry of `row` at that key's column index. -/
def writeRow {ν : Type} [DecidableEq ν] (colNames : List ν) (row : Dict ν ℕ)
    (z : List ℚ) : List ℚ :=
  row.foldl (fun z ce => z.set (List.indexOf ce.1 colNames) (ce.2 : ℚ)) z

/-- A concrete entropy stream for examples: every raw draw is `1/2`. -/
def halfEntropy : Entropy := fun _ => 1 / 2

/-- A source that always produces the same outcome, for examples. -/
def constSrc {ν α : Type} (name : ν) (value : α) : Src ν α :=
  { name := name, draw := fun _ i => (value, i + 1) }

/-- A small concrete accumulator for examples. -/
def sampleDD : Dict ℕ (Dict ℕ ℕ) := [(6, [(10, 2)]), (2, [(5, 1), (10, 3)])]

/-! ## Dictionary lemmas -/

namespace Dict

variable {κ β : Type} [DecidableEq κ]

theorem get?_nil (k : κ) : get? ([] : Dict κ β) k = none := rfl

theorem get?_cons (e : κ × β) (rest : Dict κ β) (k : κ) :
    get? (e :: rest) k = if e.1 = k then some e.2 else get? rest k := rfl

theorem set_nil (k : κ) (v : β) : set ([] : Dict κ β) k v = [(k, v)] := rfl

theorem set_cons (e : κ × β) (rest : Dict κ β) (k : κ) (v : β) :
    set (e :: rest) k v = if e.1 = k then (e.1, v) :: rest else e :: set rest k v := rfl

omit [DecidableEq κ] in
theorem keys_nil : keys ([] : Dict κ β) = [] := rfl

omit [DecidableEq κ] in
theorem keys_cons (e : κ × β) (d : Dict κ β) : keys (e :: d) = e.1 :: keys d := rfl

theorem get?_set_self (d : Dict κ β) (k : κ) (v : β) : get? (set d k v) k = some v := by
  induction d with
  | nil => simp [get?_nil, get?_cons, set_nil]
  | cons e rest ih =>
    by_cases h : e.1 = k
    · simp [set_cons, get?_cons, h]
    · simp [set_cons, get?_cons, h, ih]

theorem get?_set_ne (d : Dict κ β) {k k' : κ} (v : β) (h : k ≠ k') :
    get? (set d k v) k' = get? d k' := by
  induction d with
  | nil => simp [get?_nil, get?_cons, set_nil, h]
  | cons e rest ih =>
    by_cases he : e.1 = k
    · simp [set_cons, get?_cons, he, h]
    · simp [set_cons, get?_cons, he, ih]

theorem get?_eq_none_of_not_mem {d : Dict κ β} {k : κ} (h : k ∉ keys d) :
    get? d k = none := by
  induction d with
  | nil => rfl
  | cons e rest ih =>
    rw [keys_cons, List.mem_cons, not_or] at h
    have h1 : e.1 ≠ k := fun hk => h.1 hk.symm
    simp [get?_cons, h1, ih h.2]

theorem mem_of_get?_eq_some {d : Dict κ β} {k : κ} {v : β}
    (h : get? d k = some v) : (k, v) ∈ d := by
  induction d with
  | nil => simp [get?_nil] at h
  | cons e rest ih =>
    by_cases he : e.1 = k
    · simp only [get?_cons, he, if_true, eq_self_iff_true, Option.some.injEq] at h
      have : (k, v) = e := by
        obtain ⟨a, b⟩ := e
        simp only at he h
        simp [he, h]
      rw [this]
      exact List.mem_cons_self _ _
    · rw [get?_cons, if_neg he] at h
      exact List.mem_cons_of_mem _ (ih h)

theorem mem_keys_of_get?_eq_some {d : Dict κ β} {k : κ} {v : β}
    (h : get? d k = some v) : k ∈ keys d :=
  List.mem_map.mpr ⟨(k, v), mem_of_get?_eq_some h, rfl⟩

theorem get?_eq_some_of_mem_keys {d : Dict κ β} {k : κ} (h : k ∈ keys d) :
    ∃ v, get? d k = some v := by
  induction d with
  | nil => simp [keys_nil] at h
  | cons e rest ih =>
    by_cases he : e.1 = k
    · exact ⟨e.2, by simp [get?_cons, he]⟩
    · rw [keys_cons, List.mem_cons] at h
      have hk : k ∈ keys rest := h.resolve_left fun hk => he hk.symm
      exact (ih hk).imp fun v hv => by simp [get?_cons, he, hv]

theorem keys_set_of_mem {d : Dict κ β} {k : κ} (v : β) (h : k ∈ keys d) :
    keys (set d k v) = keys d := by
  induction d with
  | nil => simp [keys_nil] at h
  | cons e rest ih =>
    by_cases he : e.1 = k
    · simp [set_cons, keys_cons, he]
    · rw [keys_cons, List.mem_cons] at h
      have hk : k ∈ keys rest := h.resolve_left fun hk => he hk.symm
      simp [set_cons, keys_cons, he, ih hk]

theorem keys_set_of_not_mem {d : Dict κ β} {k : κ} (v : β) (h : k ∉ keys d) :
    keys (set d k v) = keys d ++ [k] := by
  induction d with
  | nil => simp [set_nil, keys_nil, keys_cons]
  | cons e rest ih =>
    rw [keys_cons, List.mem_cons, not_or] at h
    have h1 : e.1 ≠ k := fun hk => h.1 hk.symm
    simp [set_cons, keys_cons, h1, ih h.2]

theorem nodup_keys_set {d : Dict κ β} (k : κ) (v : β) (h : (keys d).Nodup) :
    (keys (set d k v)).Nodup := by
  by_cases hk : k ∈ keys d
  · rwa [keys_set_of_mem v hk]
  · rw [keys_set_of_not_mem v hk]
    refine List.Nodup.append h (List.nodup_singleton _) ?_
    intro x hx hxk
    rw [List.mem_singleton] at hxk
    subst hxk
    exact hk hx

theorem mem_set {d : Dict κ β} {k : κ} {v : β} {e : κ × β} (h : e ∈ set d k v) :
    e ∈ d ∨ e.2 = v := by
  induction d with
  | nil =>
    rw [set_nil, List.mem_singleton] at h
    right; rw [h]
  | cons e' rest ih =>
    by_cases he : e'.1 = k
    · rw [set_cons, if_pos he, List.mem_cons] at h
      rcases h with h | h
      · right; rw [h]
      · left; exact List.mem_cons_of_mem _ h
    · rw [set_cons, if_neg he, List.mem_cons] at h
      rcases h with h | h
      · left; rw [h]; exact List.mem_cons_self _ _
      · exact (ih h).imp_left (List.mem_cons_of_mem _)

theorem set_ne_nil (d : Dict κ β) (k : κ) (v : β) : set d k v ≠ [] := by
  induction d with
  | nil => simp [set_nil]
  | cons e rest _ =>
    by_cases he : e.1 = k <;> simp [set_cons, he]

end Dict

/-! ## Counting lemmas for the accumulator -/

section Counting

variable {ν α : Type} [DecidableEq ν] [DecidableEq α]

theorem innerTotal_set_succ (inner : Dict ν ℕ) (n : ν) :
    innerTotal (Dict.set inner n ((Dict.get? inner n).getD 0 + 1)) =
      innerTotal inner + 1 := by
  induction inner with
  | nil => simp [innerTotal, Dict.set, Dict.get?]
  | cons e rest ih =>
    by_cases he : e.1 = n
    · simp only [Dict.get?, he, if_pos]
      simp [innerTotal, Dict.set, he]
      omega
    · simp only [Dict.get?, he, if_neg, not_false_iff]
      simp only [Dict.set, he, if_neg, not_false_iff]
      simp only [innerTotal, List.map_cons, List.sum_cons] at ih ⊢
      omega

theorem totalCount_add (d : Dict α (Dict ν ℕ)) (n : ν) (r : α) :
    totalCount (Trial._add d n r) = totalCount d + 1 := by
  induction d with
  | nil =>
    simp [Trial._add, totalCount, Dict.set_nil, Dict.get?_nil, innerTotal]
  | cons e rest ih =>
    by_cases he : e.1 = r
    · simp only [Trial._add, Dict.get?, he, if_pos, Option.getD_some]
      simp only [Dict.set, he, if_pos]
      simp [totalCount, innerTotal_set_succ]
      omega
    · simp only [Trial._add, Dict.get?, he, if_neg, not_false_iff] at ih ⊢
      simp only [Dict.set, he, if_neg, not_false_iff]
      simp only [totalCount, List.map_cons, List.sum_cons] at ih ⊢
      omega

theorem outcomeTotal_add_self (d : Dict α (Dict ν ℕ)) (n : ν) (r : α) :
    outcomeTotal (Trial._add d n r) r = outcomeTotal d r + 1 := by
  simp [outcomeTotal, Trial._add, Dict.get?_set_self, innerTotal_set_succ]

theorem outcomeTotal_add_ne (d : Dict α (Dict ν ℕ)) (n : ν) {r o : α}
    (h : r ≠ o) : outcomeTotal (Trial._add d n r) o = outcomeTotal d o := by
  simp [outcomeTotal, Trial._add, Dict.get?_set_ne _ _ h]

theorem cellCount_add_self (d : Dict α (Dict ν ℕ)) (n : ν) (r : α) :
    cellCount (Trial._add d n r) r n = cellCount d r n + 1 := by
  simp [cellCount, Trial._add, Dict.get?_set_self]

end Counting

/-! ## Replaying a run as a list of recorded pairs -/

section RunRecord

variable {ν α : Type} [DecidableEq ν] [DecidableEq α]

theorem Trial._add_def (d : Dict α (Dict ν ℕ)) (n : ν) (r : α) :
    Trial._add d n r =
      Dict.set d r
        (Dict.set ((Dict.get? d r).getD []) n
          ((Dict.get? ((Dict.get? d r).getD []) n).getD 0 + 1)) := rfl

theorem Trial.record_nil (d : Dict α (Dict ν ℕ)) : Trial.record d [] = d := rfl

theorem Trial.record_cons (d : Dict α (Dict ν ℕ)) (p : ν × α) (ps : List (ν × α)) :
    Trial.record d (p :: ps) = Trial.record (Trial._add d p.1 p.2) ps := rfl

theorem Trial.run_fst (chooseSource : Entropy → ℕ → Src ν α × ℕ) (ρ : Entropy)
    (d : Dict α (Dict ν ℕ)) (i : ℕ) (n : ℕ) :
    (Trial.run chooseSource ρ d i n).1 =
      Trial.record d (Trial.drawList chooseSource ρ i n) := by
  induction n generalizing d i with
  | zero => rfl
  | succ n ih => simp only [Trial.run, Trial.drawList, Trial.record_cons, ih]

theorem Trial.drawList_length (chooseSource : Entropy → ℕ → Src ν α × ℕ)
    (ρ : Entropy) (i : ℕ) (n : ℕ) :
    (Trial.drawList chooseSource ρ i n).length = n := by
  induction n generalizing i with
  | zero => rfl
  | succ n ih => simp only [Trial.drawList, List.length_cons, ih]

theorem totalCount_record (d : Dict α (Dict ν ℕ)) (ps : List (ν × α)) :
    totalCount (Trial.record d ps) = totalCount d + ps.length := by
  induction ps generalizing d with
  | nil => simp [Trial.record_nil]
  | cons p ps ih =>
    rw [Trial.record_cons, ih, totalCount_add, List.length_cons]
    omega

theorem outcomeTotal_record (d : Dict α (Dict ν ℕ)) (ps : List (ν × α)) (o : α) :
    outcomeTotal (Trial.record d ps) o =
      outcomeTotal d o + ps.countP fun p => decide (p.2 = o) := by
  induction ps generalizing d with
  | nil => simp [Trial.record_nil]
  | cons p ps ih =>
    rw [Trial.record_cons, ih, List.countP_cons]
    by_cases h : p.2 = o
    · subst h
      rw [outcomeTotal_add_self]
      simp only [decide_eq_true_eq, eq_self_iff_true, if_true]
      omega
    · rw [outcomeTotal_add_ne _ _ h]
      simp only [decide_eq_true_eq]
      rw [if_neg h]
      omega

theorem DictInv_nil : DictInv (Trial.init : Dict α (Dict ν ℕ)) :=
  ⟨List.nodup_nil, by simp [Trial.init]⟩

theorem DictInv_add {d : Dict α (Dict ν ℕ)} (h : DictInv d) (n : ν) (r : α) :
    DictInv (Trial._add d n r) := by
  obtain ⟨h1, h2⟩ := h
  constructor
  · rw [Trial._add_def]
    exact Dict.nodup_keys_set _ _ h1
  · intro e he
    rw [Trial._add_def] at he
    rcases Dict.mem_set he with he2 | he2
    · exact h2 e he2
    · rw [he2]
      apply Dict.nodup_keys_set
      cases hg : Dict.get? d r with
      | none => exact List.nodup_nil
      | some inner => exact h2 (r, inner) (Dict.mem_of_get?_eq_some hg)

theorem DictInv_record {d : Dict α (Dict ν ℕ)} (h : DictInv d)
    (ps : List (ν × α)) : DictInv (Trial.record d ps) := by
  induction ps generalizing d with
  | nil => exact h
  | cons p ps ih => exact ih (DictInv_add h p.1 p.2)

theorem PosInv_nil : PosInv (Trial.init : Dict α (Dict ν ℕ)) := by
  intro e he
  simp [Trial.init] at he

theorem PosInv_add {d : Dict α (Dict ν ℕ)} (h : PosInv d) (n : ν) (r : α) :
    PosInv (Trial._add d n r) := by
  intro e he
  rw [Trial._add_def] at he
  rcases Dict.mem_set he with he2 | he2
  · exact h e he2
  · rw [he2]
    refine ⟨Dict.set_ne_nil _ _ _, ?_⟩
    intro q hq
    rcases Dict.mem_set hq with hq2 | hq2
    · cases hg : Dict.get? d r with
      | none => rw [hg] at hq2; simp at hq2
      | some inner =>
        rw [hg] at hq2
        exact (h (r, inner) (Dict.mem_of_get?_eq_some hg)).2 q hq2
    · rw [hq2]
      omega

theorem PosInv_record {d : Dict α (Dict ν ℕ)} (h : PosInv d)
    (ps : List (ν × α)) : PosInv (Trial.record d ps) := by
  induction ps generalizing d with
  | nil => exact h
  | cons p ps ih => exact ih (PosInv_add h p.1 p.2)

end RunRecord

/-! ## List index and default-lookup helpers -/

section ListHelpers

variable {γ δ : Type} [DecidableEq γ]

omit [DecidableEq γ] in
theorem getD_set_self (z : List δ) (dflt : δ) (c : ℕ) (v : δ) (hc : c < z.length) :
    (z.set c v).getD c dflt = v := by
  rw [List.getD_eq_getElem _ _ (by simpa using hc)]
  exact List.getElem_set_self (by simpa using hc)

omit [DecidableEq γ] in
theorem getD_set_ne (z : List δ) (dflt : δ) (v : δ) {c c' : ℕ} (h : c ≠ c') :
    (z.set c v).getD c' dflt = z.getD c' dflt := by
  by_cases hc : c' < z.length
  · rw [List.getD_eq_getElem _ _ (by simpa using hc), List.getD_eq_getElem _ _ hc]
    exact List.getElem_set_ne (by simpa using h) _
  · have h1 : z.length ≤ c' := Nat.le_of_not_lt hc
    have h2 : (z.set c v).length ≤ c' := by simpa using h1
    rw [List.getD_eq_getElem?_getD, List.getD_eq_getElem?_getD,
      List.getElem?_eq_none h1, List.getElem?_eq_none h2]

omit [DecidableEq γ] in
theorem set_getD_self (z : List δ) (dflt : δ) (c : ℕ) (hc : c < z.length) :
    z.set c (z.getD c dflt) = z := by
  apply List.ext_getElem (by simpa using rfl)
  intro i h1 h2
  by_cases hic : c = i
  · subst hic
    rw [List.getElem_set_self (by simpa using hc)]
    exact List.getD_eq_getElem _ _ hc
  · exact List.getElem_set_ne (by simpa using hic) _

omit [DecidableEq γ] in
theorem getD_replicate_of_lt (n : ℕ) (x : δ) (dflt : δ) (c : ℕ) (hc : c < n) :
    (List.replicate n x).getD c dflt = x := by
  rw [List.getD_eq_getElem _ _ (by simpa using hc)]
  exact List.getElem_replicate _ _

theorem indexOf_getElem_of_nodup {l : List γ} (hnd : l.Nodup) (c : ℕ)
    (hc : c < l.length) : List.indexOf l[c] l = c := by
  have hm : l[c] ∈ l := List.getElem_mem hc
  have h1 : List.indexOf l[c] l < l.length := List.indexOf_lt_length.2 hm
  have h2 : l[List.indexOf l[c] l] = l[c] := List.getElem_indexOf h1
  exact hnd.getElem_inj_iff.mp h2

theorem indexOf_ne_of_ne_getElem {l : List γ} {a : γ} (ha : a ∈ l) (c : ℕ)
    (hc : c < l.length) (h : a ≠ l[c]) : List.indexOf a l ≠ c := by
  intro hEq
  have h1 : List.indexOf a l < l.length := List.indexOf_lt_length.2 ha
  have h2 : l[List.indexOf a l] = a := List.getElem_indexOf h1
  subst hEq
  exact h h2.symm

theorem getD_map_indexOf (l : List γ) (f : γ → δ) (dflt : δ) {a : γ} (h : a ∈ l) :
    (l.map f).getD (List.indexOf a l) dflt = f a := by
  have h1 : List.indexOf a l < l.length := List.indexOf_lt_length.2 h
  rw [List.getD_eq_getElem _ _ (by simpa using h1), List.getElem_map]
  exact congrArg f (List.getElem_indexOf h1)

end ListHelpers

/-! ## The row-writing loop of dictsToTbl -/

section WriteRow

variable {ν : Type} [DecidableEq ν]

theorem writeRow_nil (cols : List ν) (z : List ℚ) : writeRow cols [] z = z := rfl

theorem writeRow_cons (cols : List ν) (ce : ν × ℕ) (row : Dict ν ℕ) (z : List ℚ) :
    writeRow cols (ce :: row) z =
      writeRow cols row (z.set (List.indexOf ce.1 cols) (ce.2 : ℚ)) := rfl

theorem writeRow_length (cols : List ν) (row : Dict ν ℕ) (z : List ℚ) :
    (writeRow cols row z).length = z.length := by
  induction row generalizing z with
  | nil => rfl
  | cons ce row ih => rw [writeRow_cons, ih, List.length_set]

theorem foldl_setCell_length (cols : List ν) (row : Dict ν ℕ)
    (ar : List (List ℚ)) (ri : ℕ) :
    (row.foldl (fun ar ce => setCell ar ri (List.indexOf ce.1 cols) (ce.2 : ℚ)) ar).length =
      ar.length := by
  induction row generalizing ar with
  | nil => rfl
  | cons ce row ih =>
    rw [List.foldl_cons, ih]
    simp [setCell]

theorem foldl_setCell_eq_set (cols : List ν) (row : Dict ν ℕ)
    (ar : List (List ℚ)) (ri : ℕ) (hri : ri < ar.length) :
    row.foldl (fun ar ce => setCell ar ri (List.indexOf ce.1 cols) (ce.2 : ℚ)) ar =
      ar.set ri (writeRow cols row (ar.getD ri [])) := by
  induction row generalizing ar with
  | nil =>
    rw [List.foldl_nil, writeRow_nil]
    exact (set_getD_self ar [] ri hri).symm
  | cons ce row ih =>
    rw [List.foldl_cons, writeRow_cons]
    have hri2 : ri < (setCell ar ri (List.indexOf ce.1 cols) (ce.2 : ℚ)).length := by
      simpa [setCell] using hri
    rw [ih _ hri2]
    rw [setCell, List.set_set]
    congr 2
    exact getD_set_self ar [] ri _ hri

theorem writeRow_getD (cols : List ν) (hnd : cols.Nodup) (row : Dict ν ℕ) :
    ∀ (z : List ℚ), (∀ k ∈ Dict.keys row, k ∈ cols) → (Dict.keys row).Nodup →
      z.length = cols.length → ∀ c, ∀ hc : c < cols.length,
      (writeRow cols row z).getD c 0 =
        ((Dict.get? row cols[c]).map (Nat.cast : ℕ → ℚ)).getD (z.getD c 0) := by
  induction row with
  | nil =>
    intro z _ _ _ c hc
    rw [writeRow_nil, Dict.get?_nil]
    rfl
  | cons ce row ih =>
    intro z hsub hknd hz c hc
    obtain ⟨k, v⟩ := ce
    rw [Dict.keys_cons] at hsub hknd
    have hk : k ∈ cols := hsub k (List.mem_cons_self _ _)
    rw [List.nodup_cons] at hknd
    rw [writeRow_cons]
    have hz2 : (z.set (List.indexOf k cols) (v : ℚ)).length = cols.length := by
      simpa using hz
    by_cases hkc : k = cols[c]
    · have hci : List.indexOf k cols = c := by
        rw [hkc]
        exact indexOf_getElem_of_nodup hnd c hc
      rw [ih _ (fun k' hk' => hsub k' (List.mem_cons_of_mem _ hk')) hknd.2 hz2 c hc]
      rw [Dict.get?_eq_none_of_not_mem (hkc ▸ hknd.1), Dict.get?_cons, if_pos hkc]
      simp only [Option.map_none', Option.map_some', Option.getD_none, Option.getD_some]
      rw [hci, getD_set_self z 0 c _ (hz ▸ hc)]
    · have hci : List.indexOf k cols ≠ c := indexOf_ne_of_ne_getElem hk c hc hkc
      rw [ih _ (fun k' hk' => hsub k' (List.mem_cons_of_mem _ hk')) hknd.2 hz2 c hc]
      rw [Dict.get?_cons, if_neg hkc, getD_set_ne z 0 _ hci]

end WriteRow

/-! ## Pointwise characterisation of the dictsToTbl matrix -/

section Table

variable {ν α : Type} [DecidableEq α] [DecidableEq ν]

theorem ext_getD {δ : Type} (dflt : δ) (l₁ l₂ : List δ) (hlen : l₁.length = l₂.length)
    (h : ∀ r, r < l₁.length → l₁.getD r dflt = l₂.getD r dflt) : l₁ = l₂ := by
  apply List.ext_getElem hlen
  intro i h1 h2
  have h3 := h i h1
  rwa [List.getD_eq_getElem _ _ h1, List.getD_eq_getElem _ _ h2] at h3

theorem foldl_rows_length (rows : List α) (cols : List ν) (dd : Dict α (Dict ν ℕ))
    (ar : List (List ℚ)) :
    (dd.foldl
        (fun ret re =>
          re.2.foldl
            (fun ret ce =>
              setCell ret (List.indexOf re.1 rows) (List.indexOf ce.1 cols) (ce.2 : ℚ))
            ret)
        ar).length = ar.length := by
  induction dd generalizing ar with
  | nil => rfl
  | cons re dd ih => rw [List.foldl_cons, ih, foldl_setCell_length]

theorem foldl_rows_getD (rows : List α) (cols : List ν) (hndR : rows.Nodup)
    (dd : Dict α (Dict ν ℕ)) :
    ∀ ar : List (List ℚ), (Dict.keys dd).Nodup →
      (∀ k ∈ Dict.keys dd, k ∈ rows) → ar.length = rows.length →
      ∀ r, ∀ hr : r < rows.length,
      (dd.foldl
          (fun ret re =>
            re.2.foldl
              (fun ret ce =>
                setCell ret (List.indexOf re.1 rows) (List.indexOf ce.1 cols) (ce.2 : ℚ))
              ret)
          ar).getD r [] =
        writeRow cols ((Dict.get? dd rows[r]).getD []) (ar.getD r []) := by
  induction dd with
  | nil =>
    intro ar _ _ _ r hr
    rw [List.foldl_nil, Dict.get?_nil]
    rfl
  | cons re dd ih =>
    intro ar hnd hsub hlen r hr
    obtain ⟨a, row⟩ := re
    rw [Dict.keys_cons] at hnd hsub
    rw [List.nodup_cons] at hnd
    have ha : a ∈ rows := hsub a (List.mem_cons_self _ _)
    have hia : List.indexOf a rows < rows.length := List.indexOf_lt_length.2 ha
    rw [List.foldl_cons]
    rw [foldl_setCell_eq_set cols row ar (List.indexOf a rows) (hlen.symm ▸ hia)]
    rw [ih _ hnd.2 (fun k hk => hsub k (List.mem_cons_of_mem _ hk)) (by simpa using hlen) r hr]
    by_cases hra : a = rows[r]
    · have hri : List.indexOf a rows = r := by
        rw [hra]
        exact indexOf_getElem_of_nodup hndR r hr
      rw [Dict.get?_eq_none_of_not_mem (hra ▸ hnd.1), Dict.get?_cons, if_pos hra]
      simp only [Option.getD_none, Option.getD_some]
      rw [writeRow_nil, hri, getD_set_self ar [] r _ (hlen.symm ▸ hr)]
    · have hne : List.indexOf a rows ≠ r := indexOf_ne_of_ne_getElem ha r hr hra
      rw [Dict.get?_cons, if_neg hra, getD_set_ne ar [] _ hne]

theorem writeRow_replicate_eq_map (cols : List ν) (hnd : cols.Nodup) (inner : Dict ν ℕ)
    (hsub : ∀ k ∈ Dict.keys inner, k ∈ cols) (hknd : (Dict.keys inner).Nodup) :
    writeRow cols inner (List.replicate cols.length 0) =
      cols.map fun b => (((Dict.get? inner b).getD 0 : ℕ) : ℚ) := by
  apply ext_getD 0
  · rw [writeRow_length, List.length_replicate, List.length_map]
  · intro c hcL
    have hc : c < cols.length := by rwa [writeRow_length, List.length_replicate] at hcL
    rw [writeRow_getD cols hnd inner _ hsub hknd (by simp) c hc]
    rw [getD_replicate_of_lt _ _ _ c hc]
    rw [List.getD_eq_getElem _ 0 (by simpa using hc), List.getElem_map]
    cases Dict.get? inner cols[c] with
    | none => simp
    | some v => simp

theorem tblAux (rows : List α) (cols : List ν) (dd : Dict α (Dict ν ℕ))
    (hndR : rows.Nodup) (hndC : cols.Nodup)
    (hkR : ∀ k ∈ Dict.keys dd, k ∈ rows)
    (hkC : ∀ e ∈ dd, ∀ k ∈ Dict.keys e.2, k ∈ cols) (hinv : DictInv dd) :
    dd.foldl
        (fun ret re =>
          re.2.foldl
            (fun ret ce =>
              setCell ret (List.indexOf re.1 rows) (List.indexOf ce.1 cols) (ce.2 : ℚ))
            ret)
        (List.replicate rows.length (List.replicate cols.length 0)) =
      rows.map fun a => cols.map fun b => ((cellCount dd a b : ℕ) : ℚ) := by
  apply ext_getD []
  · rw [foldl_rows_length, List.length_replicate, List.length_map]
  · intro r hrL
    have hr : r < rows.length := by
      rwa [foldl_rows_length, List.length_replicate] at hrL
    rw [foldl_rows_getD rows cols hndR dd _ hinv.1 hkR (by simp) r hr]
    rw [getD_replicate_of_lt _ _ _ r hr]
    rw [List.getD_eq_getElem _ [] (by simpa using hr), List.getElem_map]
    have hsubI : ∀ k ∈ Dict.keys ((Dict.get? dd rows[r]).getD []), k ∈ cols := by
      cases hg : Dict.get? dd rows[r] with
      | none => intro k hk; simp [Dict.keys_nil] at hk
      | some inner =>
        exact fun k hk => hkC (rows[r], inner) (Dict.mem_of_get?_eq_some hg) k hk
    have hndI : (Dict.keys ((Dict.get? dd rows[r]).getD [])).Nodup := by
      cases hg : Dict.get? dd rows[r] with
      | none => exact List.nodup_nil
      | some inner => exact hinv.2 (rows[r], inner) (Dict.mem_of_get?_eq_some hg)
    rw [writeRow_replicate_eq_map cols hndC _ hsubI hndI]
    rfl

end Table

/-! ## Facts about dictsToTbl labels and sums -/

section TableFacts

variable {ν α : Type} [LinearOrder α] [LinearOrder ν] [DecidableEq α] [DecidableEq ν]

theorem cellCount_def (d : Dict α (Dict ν ℕ)) (r : α) (n : ν) :
    cellCount d r n = (Dict.get? ((Dict.get? d r).getD []) n).getD 0 := rfl

theorem outcomeTotal_def (d : Dict α (Dict ν ℕ)) (o : α) :
    outcomeTotal d o = innerTotal ((Dict.get? d o).getD []) := rfl

theorem innerTotal_cons (k : ν) (v : ℕ) (d : Dict ν ℕ) :
    innerTotal ((k, v) :: d) = v + innerTotal d := by simp [innerTotal]

theorem totalCount_cons (a : α) (inner : Dict ν ℕ) (d : Dict α (Dict ν ℕ)) :
    totalCount ((a, inner) :: d) = innerTotal inner + totalCount d := by
  simp [totalCount]

theorem dictsToTbl_rows (dd : Dict α (Dict ν ℕ)) :
    (dictsToTbl dd).2.1 = (Dict.keys dd).mergeSort fun a b => decide (a ≤ b) := rfl

theorem dictsToTbl_cols (dd : Dict α (Dict ν ℕ)) :
    (dictsToTbl dd).2.2 =
      ((dd.map fun e => Dict.keys e.2).flatten.dedup).mergeSort fun a b =>
        decide (a ≤ b) := rfl

theorem dictsToTbl_tbl (dd : Dict α (Dict ν ℕ)) :
    (dictsToTbl dd).1 =
      dd.foldl
        (fun ret re =>
          re.2.foldl
            (fun ret ce =>
              setCell ret (List.indexOf re.1 (dictsToTbl dd).2.1)
                (List.indexOf ce.1 (dictsToTbl dd).2.2) (ce.2 : ℚ))
            ret)
        (List.replicate (dictsToTbl dd).2.1.length
          (List.replicate (dictsToTbl dd).2.2.length 0)) := rfl

theorem dictsToTbl_rows_sorted (dd : Dict α (Dict ν ℕ)) :
    List.Sorted (· ≤ ·) (dictsToTbl dd).2.1 := by
  rw [dictsToTbl_rows]
  simpa using List.sorted_mergeSort' (Dict.keys dd)

theorem dictsToTbl_rows_perm (dd : Dict α (Dict ν ℕ)) :
    List.Perm (dictsToTbl dd).2.1 (Dict.keys dd) :=
  List.mergeSort_perm _ _

theorem dictsToTbl_rows_nodup (dd : Dict α (Dict ν ℕ)) (hinv : DictInv dd) :
    ((dictsToTbl dd).2.1).Nodup :=
  (dictsToTbl_rows_perm dd).nodup_iff.mpr hinv.1

theorem mem_dictsToTbl_rows (dd : Dict α (Dict ν ℕ)) (a : α) :
    a ∈ (dictsToTbl dd).2.1 ↔ a ∈ Dict.keys dd :=
  (dictsToTbl_rows_perm dd).mem_iff

theorem dictsToTbl_cols_sorted (dd : Dict α (Dict ν ℕ)) :
    List.Sorted (· ≤ ·) (dictsToTbl dd).2.2 := by
  rw [dictsToTbl_cols]
  simpa using List.sorted_mergeSort' ((dd.map fun e => Dict.keys e.2).flatten.dedup)

theorem dictsToTbl_cols_perm (dd : Dict α (Dict ν ℕ)) :
    List.Perm (dictsToTbl dd).2.2 ((dd.map fun e => Dict.keys e.2).flatten.dedup) :=
  List.mergeSort_perm _ _

theorem dictsToTbl_cols_nodup (dd : Dict α (Dict ν ℕ)) :
    ((dictsToTbl dd).2.2).Nodup :=
  (dictsToTbl_cols_perm dd).nodup_iff.mpr (List.nodup_dedup _)

theorem mem_dictsToTbl_cols (dd : Dict α (Dict ν ℕ)) (b : ν) :
    b ∈ (dictsToTbl dd).2.2 ↔ ∃ e ∈ dd, b ∈ Dict.keys e.2 := by
  rw [dictsToTbl_cols]
  rw [List.mem_mergeSort, List.mem_dedup, List.mem_flatten]
  constructor
  · rintro ⟨l, hl, hb⟩
    rw [List.mem_map] at hl
    obtain ⟨e, he, rfl⟩ := hl
    exact ⟨e, he, hb⟩
  · rintro ⟨e, he, hb⟩
    exact ⟨Dict.keys e.2, List.mem_map_of_mem _ he, hb⟩

theorem dictsToTbl_tbl_eq (dd : Dict α (Dict ν ℕ)) (hinv : DictInv dd) :
    (dictsToTbl dd).1 =
      (dictsToTbl dd).2.1.map fun a =>
        (dictsToTbl dd).2.2.map fun b => ((cellCount dd a b : ℕ) : ℚ) := by
  rw [dictsToTbl_tbl]
  exact tblAux _ _ dd (dictsToTbl_rows_nodup dd hinv) (dictsToTbl_cols_nodup dd)
    (fun k hk => (mem_dictsToTbl_rows dd k).mpr hk)
    (fun e he k hk => (mem_dictsToTbl_cols dd k).mpr ⟨e, he, hk⟩) hinv

theorem sum_map_getD_innerTotal (cols : List ν) (hnd : cols.Nodup) (inner : Dict ν ℕ) :
    (∀ k ∈ Dict.keys inner, k ∈ cols) → (Dict.keys inner).Nodup →
      (cols.map fun b => (Dict.get? inner b).getD 0).sum = innerTotal inner := by
  induction inner with
  | nil =>
    intro _ _
    simp [Dict.get?_nil, innerTotal]
  | cons ce rest ih =>
    intro hsub hknd
    obtain ⟨k, v⟩ := ce
    rw [Dict.keys_cons] at hsub hknd
    rw [List.nodup_cons] at hknd
    have hk : k ∈ cols := hsub k (List.mem_cons_self _ _)
    obtain ⟨s, t, rfl⟩ := List.append_of_mem hk
    have hks : k ∉ s := fun hks =>
      (List.nodup_append.mp hnd).2.2 hks (List.mem_cons_self _ _)
    have ih2 := ih (fun b hb => hsub b (List.mem_cons_of_mem _ hb)) hknd.2
    have hs2 : s.map (fun b => (Dict.get? ((k, v) :: rest) b).getD 0) =
        s.map fun b => (Dict.get? rest b).getD 0 :=
      List.map_congr_left fun b hb => by
        rw [Dict.get?_cons, if_neg fun h : k = b => hks (h.symm ▸ hb)]
    have hkt : k ∉ t := (List.nodup_cons.mp (List.nodup_append.mp hnd).2.1).1
    have ht2 : t.map (fun b => (Dict.get? ((k, v) :: rest) b).getD 0) =
        t.map fun b => (Dict.get? rest b).getD 0 :=
      List.map_congr_left fun b hb => by
        rw [Dict.get?_cons, if_neg fun h : k = b => hkt (h.symm ▸ hb)]
    have hgk : (Dict.get? ((k, v) :: rest) k).getD 0 = v := by
      rw [Dict.get?_cons, if_pos rfl]
      rfl
    have hg2k : (Dict.get? rest k).getD 0 = 0 := by
      rw [Dict.get?_eq_none_of_not_mem hknd.1]
      rfl
    rw [List.map_append, List.sum_append, List.map_cons, List.sum_cons] at ih2 ⊢
    rw [hs2, ht2, hgk, innerTotal_cons]
    rw [hg2k] at ih2
    omega

theorem sum_keys_outcomeTotal (d : Dict α (Dict ν ℕ))
    (hnd : (Dict.keys d).Nodup) :
    ((Dict.keys d).map fun a => outcomeTotal d a).sum = totalCount d := by
  induction d with
  | nil => rfl
  | cons e rest ih =>
    obtain ⟨a, inner⟩ := e
    rw [Dict.keys_cons] at hnd ⊢
    rw [List.nodup_cons] at hnd
    rw [List.map_cons, List.sum_cons]
    have h1 : outcomeTotal ((a, inner) :: rest) a = innerTotal inner := by
      rw [outcomeTotal_def, Dict.get?_cons, if_pos rfl]
      rfl
    have h2 : (Dict.keys rest).map (fun x => outcomeTotal ((a, inner) :: rest) x) =
        (Dict.keys rest).map fun x => outcomeTotal rest x :=
      List.map_congr_left fun b hb => by
        rw [outcomeTotal_def, outcomeTotal_def, Dict.get?_cons,
          if_neg fun h : a = b => hnd.1 (h.symm ▸ hb)]
    rw [h1, h2, ih hnd.2, totalCount_cons]

theorem sum_cols_cellCount (dd : Dict α (Dict ν ℕ)) (hinv : DictInv dd) {a : α}
    (ha : a ∈ Dict.keys dd) :
    ((dictsToTbl dd).2.2.map fun b => ((cellCount dd a b : ℕ) : ℚ)).sum =
      ((outcomeTotal dd a : ℕ) : ℚ) := by
  obtain ⟨inner, hg⟩ := Dict.get?_eq_some_of_mem_keys ha
  have hmem : (a, inner) ∈ dd := Dict.mem_of_get?_eq_some hg
  have h1 : ((dictsToTbl dd).2.2.map fun b => ((cellCount dd a b : ℕ) : ℚ)) =
      ((dictsToTbl dd).2.2.map fun b => (Dict.get? inner b).getD 0).map
        (Nat.cast : ℕ → ℚ) := by
    rw [List.map_map]
    exact List.map_congr_left fun b _ => by
      simp only [Function.comp_apply, cellCount_def, hg]
      rfl
  rw [h1, ← Nat.cast_list_sum]
  rw [sum_map_getD_innerTotal _ (dictsToTbl_cols_nodup dd) inner
    (fun k hk => (mem_dictsToTbl_cols dd k).mpr ⟨(a, inner), hmem, hk⟩)
    (hinv.2 (a, inner) hmem)]
  rw [outcomeTotal_def, hg]
  rfl

theorem dictsToTbl_row_sum (dd : Dict α (Dict ν ℕ)) (hinv : DictInv dd) {a : α}
    (ha : a ∈ (dictsToTbl dd).2.1) :
    ((dictsToTbl dd).1.getD (List.indexOf a (dictsToTbl dd).2.1) []).sum =
      ((outcomeTotal dd a : ℕ) : ℚ) := by
  rw [dictsToTbl_tbl_eq dd hinv]
  rw [getD_map_indexOf _ _ _ ha]
  exact sum_cols_cellCount dd hinv ((mem_dictsToTbl_rows dd a).mp ha)

theorem dictsToTbl_grand_total (dd : Dict α (Dict ν ℕ)) (hinv : DictInv dd) :
    (((dictsToTbl dd).1).map List.sum).sum = ((totalCount dd : ℕ) : ℚ) := by
  rw [dictsToTbl_tbl_eq dd hinv, List.map_map]
  have h1 : (dictsToTbl dd).2.1.map
        (List.sum ∘ fun a => (dictsToTbl dd).2.2.map fun b => ((cellCount dd a b : ℕ) : ℚ)) =
      (dictsToTbl dd).2.1.map fun a => ((outcomeTotal dd a : ℕ) : ℚ) :=
    List.map_congr_left fun a ha => by
      simp only [Function.comp_apply]
      exact sum_cols_cellCount dd hinv ((mem_dictsToTbl_rows dd a).mp ha)
  rw [h1]
  rw [((dictsToTbl_rows_perm dd).map fun a => ((outcomeTotal dd a : ℕ) : ℚ)).sum_eq]
  have h2 : ((Dict.keys dd).map fun a => ((outcomeTotal dd a : ℕ) : ℚ)) =
      ((Dict.keys dd).map fun a => outcomeTotal dd a).map (Nat.cast : ℕ → ℚ) := by
    rw [List.map_map]
    rfl
  rw [h2, ← Nat.cast_list_sum, sum_keys_outcomeTotal dd hinv.1]

end TableFacts

/-! ## Counter loop bounds and norm helpers -/

section CounterNorm

variable {ν α : Type} [DecidableEq α]

theorem Counter.loop_zero (source : Src ν α) (value : α) (ρ : Entropy)
    (total i : ℕ) : Counter.loop source value ρ total i 0 = (total, i) := rfl

theorem Counter.loop_succ (source : Src ν α) (value : α) (ρ : Entropy)
    (total i n : ℕ) :
    Counter.loop source value ρ total i (n + 1) =
      Counter.loop source value ρ
        (if (source.draw ρ i).1 = value then total + 1 else total)
        (source.draw ρ i).2 n := rfl

theorem Counter.loop_le (source : Src ν α) (value : α) (ρ : Entropy) :
    ∀ (n total i : ℕ),
      (Counter.loop source value ρ total i n).1 ≤ total + n := by
  intro n
  induction n with
  | zero => intro total i; simp [Counter.loop_zero]
  | succ n ih =>
    intro total i
    rw [Counter.loop_succ]
    refine le_trans (ih _ _) ?_
    by_cases h : (source.draw ρ i).1 = value <;> simp [h] <;> omega

theorem Counter.loop_exact (source : Src ν α) (value : α) (ρ : Entropy)
    (hall : ∀ j, (source.draw ρ j).1 = value) :
    ∀ (n total i : ℕ), (Counter.loop source value ρ total i n).1 = total + n := by
  intro n
  induction n with
  | zero => intro total i; simp [Counter.loop_zero]
  | succ n ih =>
    intro total i
    rw [Counter.loop_succ, if_pos (hall i), ih]
    omega

theorem sum_map_div (l : List ℚ) (s : ℚ) :
    (l.map fun x => x / s).sum = l.sum / s := by
  induction l with
  | nil => simp
  | cons a t ih => simp [ih, div_add_div_same]

end CounterNorm

/-! ## Claim theorems -/

/-- C1: after `run(nDraws)` from a fresh `Trial`, every count stored in the
accumulator is a non-negative integer and the sum of all (outcome, source
name) cell counts equals the number of draw iterations performed; `run(0)` on
a fresh `Trial` leaves the accumulator empty. -/
theorem trial_run_total_counts (ν α : Type) [DecidableEq ν] [DecidableEq α]
    (chooseSource : Entropy → ℕ → Src ν α × ℕ) (ρ : Entropy) (i nDraws : ℕ) :
    (∀ e ∈ (Trial.run chooseSource ρ Trial.init i nDraws).1, ∀ q ∈ e.2, 0 ≤ q.2) ∧
    totalCount (Trial.run chooseSource ρ Trial.init i nDraws).1 = nDraws ∧
    (Trial.run chooseSource ρ Trial.init i 0).1 = Trial.init := by
  refine ⟨fun e _ q _ => Nat.zero_le _, ?_, rfl⟩
  rw [Trial.run_fst, totalCount_record, Trial.drawList_length]
  simp [Trial.init, totalCount]

/-- C2: `dictsToTbl dd` returns the dense count matrix whose rows are indexed
by the outcomes of `dd` sorted ascending and whose columns are indexed by the
union of inner source names sorted ascending, with each cell equal to the
stored count and absent cells reading as zero, plus the two sorted label
lists. -/
theorem dictsToTbl_spec (ν α : Type) [LinearOrder α] [LinearOrder ν]
    [DecidableEq α] [DecidableEq ν] (dd : Dict α (Dict ν ℕ)) (hinv : DictInv dd) :
    List.Sorted (· ≤ ·) (dictsToTbl dd).2.1 ∧
    List.Perm (dictsToTbl dd).2.1 (Dict.keys dd) ∧
    List.Sorted (· ≤ ·) (dictsToTbl dd).2.2 ∧
    ((dictsToTbl dd).2.2).Nodup ∧
    (∀ b ∈ (dictsToTbl dd).2.2, ∃ e ∈ dd, b ∈ Dict.keys e.2) ∧
    (∀ e ∈ dd, ∀ q ∈ e.2, q.1 ∈ (dictsToTbl dd).2.2) ∧
    (dictsToTbl dd).1.length = (dictsToTbl dd).2.1.length ∧
    (∀ row ∈ (dictsToTbl dd).1, row.length = (dictsToTbl dd).2.2.length) ∧
    ∀ a ∈ (dictsToTbl dd).2.1, ∀ b ∈ (dictsToTbl dd).2.2,
      ((dictsToTbl dd).1.getD (List.indexOf a (dictsToTbl dd).2.1) []).getD
          (List.indexOf b (dictsToTbl dd).2.2) 0 =
        (((Dict.get? ((Dict.get? dd a).getD []) b).getD 0 : ℕ) : ℚ) := by
  refine ⟨dictsToTbl_rows_sorted dd, dictsToTbl_rows_perm dd,
    dictsToTbl_cols_sorted dd, dictsToTbl_cols_nodup dd,
    fun b hb => (mem_dictsToTbl_cols dd b).mp hb,
    fun e he q hq =>
      (mem_dictsToTbl_cols dd q.1).mpr ⟨e, he, List.mem_map_of_mem _ hq⟩,
    ?_, ?_, ?_⟩
  · rw [dictsToTbl_tbl_eq dd hinv, List.length_map]
  · intro row hrow
    rw [dictsToTbl_tbl_eq dd hinv] at hrow
    obtain ⟨a, _, rfl⟩ := List.mem_map.mp hrow
    rw [List.length_map]
  · intro a ha b hb
    rw [dictsToTbl_tbl_eq dd hinv, getD_map_indexOf _ _ _ ha,
      getD_map_indexOf _ _ _ hb]
    rfl

/-- C3: for an accumulator built by running a trial `nDraws` times from a
fresh `Trial`, each row of the `dictsToTbl` matrix sums to the number of
draws whose outcome was that row's label, and the whole matrix sums to
exactly `nDraws`. -/
theorem run_table_sums (ν α : Type) [LinearOrder α] [LinearOrder ν]
    [DecidableEq α] [DecidableEq ν]
    (chooseSource : Entropy → ℕ → Src ν α × ℕ) (ρ : Entropy) (i nDraws : ℕ) :
    (∀ a ∈ (dictsToTbl (Trial.run chooseSource ρ Trial.init i nDraws).1).2.1,
      ((dictsToTbl (Trial.run chooseSource ρ Trial.init i nDraws).1).1.getD
          (List.indexOf a
            (dictsToTbl (Trial.run chooseSource ρ Trial.init i nDraws).1).2.1)
          []).sum =
        (((Trial.drawList chooseSource ρ i nDraws).countP
            fun p => decide (p.2 = a) : ℕ) : ℚ)) ∧
    ((dictsToTbl (Trial.run chooseSource ρ Trial.init i nDraws).1).1.map
        List.sum).sum = ((nDraws : ℕ) : ℚ) := by
  have hinv : DictInv (Trial.run chooseSource ρ Trial.init i nDraws).1 := by
    rw [Trial.run_fst]
    exact DictInv_record DictInv_nil _
  constructor
  · intro a ha
    rw [dictsToTbl_row_sum _ hinv ha]
    congr 1
    rw [Trial.run_fst, outcomeTotal_record]
    simp [Trial.init, outcomeTotal_def, Dict.get?_nil, innerTotal]
  · rw [dictsToTbl_grand_total _ hinv]
    congr 1
    rw [Trial.run_fst, totalCount_record, Trial.drawList_length]
    simp [Trial.init, totalCount]

/-- C4: `norm` divides each row elementwise by that row's sum, so each
normalised cell is the original cell over the row total, and every row whose
total is nonzero sums to exactly 1 after normalisation. -/
theorem norm_spec (ar : List (List ℚ)) :
    (norm ar).length = ar.length ∧
    ∀ r, r < ar.length →
      (∀ c, ((norm ar).getD r []).getD c 0 =
        (ar.getD r []).getD c 0 / (ar.getD r []).sum) ∧
      ((ar.getD r []).sum ≠ 0 → ((norm ar).getD r []).sum = 1) := by
  refine ⟨by rw [norm, List.length_map], ?_⟩
  intro r hr
  have hrow : (norm ar).getD r [] =
      (ar.getD r []).map fun x => x / (ar.getD r []).sum := by
    rw [norm, List.getD_eq_getElem _ [] (by simpa using hr),
      List.getElem_map, List.getD_eq_getElem _ [] hr]
  constructor
  · intro c
    rw [hrow]
    by_cases hc : c < (ar.getD r []).length
    · rw [List.getD_eq_getElem _ 0 (by simpa using hc),
        List.getElem_map, List.getD_eq_getElem _ 0 hc]
    · have h1 : (ar.getD r []).length ≤ c := Nat.le_of_not_lt hc
      have h2 : ((ar.getD r []).map fun x => x / (ar.getD r []).sum).length ≤ c := by
        simpa using h1
      have e1 : ((ar.getD r []).map fun x => x / (ar.getD r []).sum).getD c 0 = 0 := by
        rw [List.getD_eq_getElem?_getD, List.getElem?_eq_none h2, Option.getD_none]
      have e2 : (ar.getD r []).getD c 0 = 0 := by
        rw [List.getD_eq_getElem?_getD, List.getElem?_eq_none h1, Option.getD_none]
      rw [e1, e2, zero_div]
  · intro hs
    rw [hrow, sum_map_div, div_self hs]

/-- C5: for every positive side count, `Die(sides).draw()` returns an integer
in the closed interval `[1, sides]`. -/
theorem die_draw_range (sides : ℕ) (name : Option ℕ) (hs : 1 ≤ sides)
    (ρ : Entropy) (hρ : ρ.Valid) (i : ℕ) :
    1 ≤ ((Die sides name).draw ρ i).1 ∧ ((Die sides name).draw ρ i).1 ≤ sides := by
  obtain ⟨h0, h1⟩ := hρ i
  constructor
  · show 1 ≤ randint 1 sides (ρ i)
    rw [randint]
    omega
  · show randint 1 sides (ρ i) ≤ sides
    rw [randint]
    have hsQ : (0 : ℚ) < (sides : ℚ) := by exact_mod_cast hs
    have he : ((sides : ℚ) + 1 - ((1 : ℕ) : ℚ)) = (sides : ℚ) := by
      push_cast
      ring
    have hx : ρ i * ((sides : ℚ) + 1 - ((1 : ℕ) : ℚ)) < ((sides : ℕ) : ℚ) := by
      rw [he]
      nlinarith
    have hfl : ⌊ρ i * ((sides : ℚ) + 1 - ((1 : ℕ) : ℚ))⌋ < ((sides : ℕ) : ℤ) := by
      rw [Int.floor_lt]
      exact_mod_cast hx
    omega

/-- C6: `Coin(1)` always draws Heads and `Coin(-1)` always draws Tails; in
general a draw is Heads exactly when the uniform sample from `[-1, 1)` is
below the bias, which happens exactly when the raw entropy value is below
`(bias + 1) / 2` — giving head probability `(bias + 1) / 2` over the entropy
space. -/
theorem coin_draw_spec (bias : ℚ) (ρ : Entropy) (hρ : ρ.Valid) (i : ℕ) :
    ((Coin 1).draw ρ i).1 = "Heads" ∧
    ((Coin (-1)).draw ρ i).1 = "Tails" ∧
    (((Coin bias).draw ρ i).1 = "Heads" ↔ uniform (-1) 1 (ρ i) < bias) ∧
    (uniform (-1) 1 (ρ i) < bias ↔ ρ i < (bias + 1) / 2) := by
  obtain ⟨h0, h1⟩ := hρ i
  refine ⟨?_, ?_, ?_, ?_⟩
  · show (if uniform (-1) 1 (ρ i) < 1 then "Heads" else "Tails") = "Heads"
    rw [if_pos (by rw [uniform]; linarith)]
  · show (if uniform (-1) 1 (ρ i) < -1 then "Heads" else "Tails") = "Tails"
    rw [if_neg (by rw [uniform]; intro hcon; linarith)]
  · constructor
    · intro h
      by_contra hc
      rw [show ((Coin bias).draw ρ i).1 =
          (if uniform (-1) 1 (ρ i) < bias then "Heads" else "Tails") from rfl,
        if_neg hc] at h
      exact absurd h (by decide)
    · intro hc
      rw [show ((Coin bias).draw ρ i).1 =
          (if uniform (-1) 1 (ρ i) < bias then "Heads" else "Tails") from rfl,
        if_pos hc]
  · rw [uniform]
    constructor <;> intro h <;> linarith

/-- C7: `Counter(source, value, nDraws).draw()` returns an integer in
`[0, nDraws]`, and when every draw of the wrapped source (under the entropy
stream in use) yields `value`, the result is exactly `nDraws`. -/
theorem counter_draw_range (ν α : Type) [DecidableEq α] (source : Src ν α)
    (value : α) (nDraws : ℕ) (ρ : Entropy) (i : ℕ) :
    (0 ≤ ((Counter source value nDraws).draw ρ i).1 ∧
      ((Counter source value nDraws).draw ρ i).1 ≤ nDraws) ∧
    ((∀ j, (source.draw ρ j).1 = value) →
      ((Counter source value nDraws).draw ρ i).1 = nDraws) := by
  constructor
  · refine ⟨Nat.zero_le _, ?_⟩
    show (Counter.loop source value ρ 0 i nDraws).1 ≤ nDraws
    simpa using Counter.loop_le source value ρ nDraws 0 i
  · intro hall
    show (Counter.loop source value ρ 0 i nDraws).1 = nDraws
    simpa using Counter.loop_exact source value ρ hall nDraws 0 i

/-- C8: a `Counter`'s name equals the wrapped source's name, so counters over
same-named sources record their draws into the same (outcome, source name)
cell of the accumulator. -/
theorem counter_name_merge (ν α₁ α₂ : Type) [DecidableEq ν] [DecidableEq α₁]
    [DecidableEq α₂] (s₁ : Src ν α₁) (s₂ : Src ν α₂) (v₁ : α₁) (v₂ : α₂)
    (k₁ k₂ : ℕ) (h : s₁.name = s₂.name) (d : Dict ℕ (Dict ν ℕ)) (out : ℕ) :
    (Counter s₁ v₁ k₁).name = s₁.name ∧
    cellCount
        (Trial._add (Trial._add d (Counter s₁ v₁ k₁).name out)
          (Counter s₂ v₂ k₂).name out)
        out (Counter s₁ v₁ k₁).name =
      cellCount d out (Counter s₁ v₁ k₁).name + 2 := by
  refine ⟨rfl, ?_⟩
  show cellCount (Trial._add (Trial._add d s₁.name out) s₂.name out) out s₁.name = _
  rw [← h, cellCount_add_self, cellCount_add_self]
  show cellCount d out s₁.name + 1 + 1 = cellCount d out s₁.name + 2
  omega

/-- C9 (amended): `Trial.run` on a `UniformSelectionTrial` leaves the source
collection — and with it every source's parameters and name — unchanged;
the only state it changes is its own accumulator and the global PRNG
cursor. -/
theorem run_preserves_sources (ν α : Type) [DecidableEq ν] [DecidableEq α]
    [Inhabited ν] [Inhabited α] (ρ : Entropy) (w : World ν α) (nDraws : ℕ) :
    (UniformSelectionTrial.run ρ w nDraws).sources = w.sources ∧
    UniformSelectionTrial.run ρ w nDraws =
      { sources := w.sources
        results := (UniformSelectionTrial.run ρ w nDraws).results
        rng := (UniformSelectionTrial.run ρ w nDraws).rng } :=
  ⟨rfl, rfl⟩

unseal Rat.add Rat.mul Rat.inv Rat.sub in
/-- C9 counterexample: one draw on a `UniformSelectionTrial` advances the
global PRNG state (the `random` module's cursor), so state outside the
runner's accumulator does change, refuting the claim that no shared or
global state is modified. -/
theorem run_mutates_global_rng :
    (UniformSelectionTrial.run halfEntropy
        { sources := [Die 6], results := Trial.init, rng := 0 } 1).rng ≠ 0 := by
  decide

/-- C10: every accumulator reachable by recording draws through `Trial._add`
maps each stored outcome to a non-empty inner dict whose counts are all at
least 1, so every row of `dictsToTbl` of such an accumulator has strictly
positive sum and the division by zero in `norm` cannot occur for
trial-produced tables. -/
theorem record_rows_positive (ν α : Type) [LinearOrder α] [LinearOrder ν]
    [DecidableEq α] [DecidableEq ν] (ps : List (ν × α)) :
    PosInv (Trial.record Trial.init ps) ∧
    ∀ a ∈ (dictsToTbl (Trial.record Trial.init ps)).2.1,
      0 < ((dictsToTbl (Trial.record Trial.init ps)).1.getD
          (List.indexOf a (dictsToTbl (Trial.record Trial.init ps)).2.1) []).sum := by
  have hpos := PosInv_record (PosInv_nil (ν := ν) (α := α)) ps
  refine ⟨hpos, ?_⟩
  intro a ha
  have hinv : DictInv (Trial.record Trial.init ps) := DictInv_record DictInv_nil ps
  rw [dictsToTbl_row_sum _ hinv ha]
  have ha2 : a ∈ Dict.keys (Trial.record Trial.init ps) :=
    (mem_dictsToTbl_rows _ a).mp ha
  obtain ⟨inner, hg⟩ := Dict.get?_eq_some_of_mem_keys ha2
  have hmem := Dict.mem_of_get?_eq_some hg
  obtain ⟨hne, hge1⟩ := hpos _ hmem
  have h1 : 1 ≤ innerTotal inner := by
    cases inner with
    | nil => exact absurd rfl hne
    | cons q rest =>
      have h2 := hge1 q (List.mem_cons_self _ _)
      simp only [innerTotal, List.map_cons, List.sum_cons]
      omega
  have h3 : 0 < outcomeTotal (Trial.record Trial.init ps) a := by
    rw [outcomeTotal_def, hg]
    show 0 < innerTotal inner
    omega
  exact_mod_cast h3

/-! ## Concrete witnesses -/

theorem halfEntropy_valid : Entropy.Valid halfEntropy := by
  intro i
  constructor <;> norm_num [halfEntropy]

theorem trial_run_total_counts_witness :
    (∀ e ∈ (Trial.run (UniformSelectionTrial.chooseSource [Die 6]) halfEntropy
        Trial.init 0 3).1, ∀ q ∈ e.2, 0 ≤ q.2) ∧
    totalCount (Trial.run (UniformSelectionTrial.chooseSource [Die 6]) halfEntropy
        Trial.init 0 3).1 = 3 ∧
    (Trial.run (UniformSelectionTrial.chooseSource [Die 6]) halfEntropy
        Trial.init 0 0).1 = Trial.init :=
  trial_run_total_counts ℕ ℕ (UniformSelectionTrial.chooseSource [Die 6])
    halfEntropy 0 3

unseal List.merge List.mergeSort in
theorem dictsToTbl_spec_witness :
    DictInv sampleDD ∧
    (List.Sorted (· ≤ ·) (dictsToTbl sampleDD).2.1 ∧
      List.Perm (dictsToTbl sampleDD).2.1 (Dict.keys sampleDD) ∧
      List.Sorted (· ≤ ·) (dictsToTbl sampleDD).2.2 ∧
      ((dictsToTbl sampleDD).2.2).Nodup ∧
      (∀ b ∈ (dictsToTbl sampleDD).2.2, ∃ e ∈ sampleDD, b ∈ Dict.keys e.2) ∧
      (∀ e ∈ sampleDD, ∀ q ∈ e.2, q.1 ∈ (dictsToTbl sampleDD).2.2) ∧
      (dictsToTbl sampleDD).1.length = (dictsToTbl sampleDD).2.1.length ∧
      (∀ row ∈ (dictsToTbl sampleDD).1, row.length = (dictsToTbl sampleDD).2.2.length) ∧
      ∀ a ∈ (dictsToTbl sampleDD).2.1, ∀ b ∈ (dictsToTbl sampleDD).2.2,
        ((dictsToTbl sampleDD).1.getD (List.indexOf a (dictsToTbl sampleDD).2.1) []).getD
            (List.indexOf b (dictsToTbl sampleDD).2.2) 0 =
          (((Dict.get? ((Dict.get? sampleDD a).getD []) b).getD 0 : ℕ) : ℚ)) :=
  ⟨by decide, dictsToTbl_spec ℕ ℕ sampleDD (by decide)⟩

theorem run_table_sums_witness :
    (∀ a ∈ (dictsToTbl (Trial.run (UniformSelectionTrial.chooseSource [Die 6])
        halfEntropy Trial.init 0 3).1).2.1,
      ((dictsToTbl (Trial.run (UniformSelectionTrial.chooseSource [Die 6])
          halfEntropy Trial.init 0 3).1).1.getD
          (List.indexOf a
            (dictsToTbl (Trial.run (UniformSelectionTrial.chooseSource [Die 6])
              halfEntropy Trial.init 0 3).1).2.1)
          []).sum =
        (((Trial.drawList (UniformSelectionTrial.chooseSource [Die 6])
            halfEntropy 0 3).countP fun p => decide (p.2 = a) : ℕ) : ℚ)) ∧
    ((dictsToTbl (Trial.run (UniformSelectionTrial.chooseSource [Die 6])
        halfEntropy Trial.init 0 3).1).1.map List.sum).sum = ((3 : ℕ) : ℚ) :=
  run_table_sums ℕ ℕ (UniformSelectionTrial.chooseSource [Die 6]) halfEntropy 0 3

unseal Rat.add Rat.mul Rat.inv Rat.sub in
theorem norm_spec_witness :
    (0 < ([[1, 3], [0, 2]] : List (List ℚ)).length ∧
      (([[1, 3], [0, 2]] : List (List ℚ)).getD 0 []).sum ≠ 0) ∧
    ((norm [[1, 3], [0, 2]]).getD 0 []).sum = 1 :=
  ⟨⟨by decide, by decide⟩,
    ((norm_spec [[1, 3], [0, 2]]).2 0 (by decide)).2 (by decide)⟩

theorem die_draw_range_witness :
    ((1 : ℕ) ≤ 6 ∧ Entropy.Valid halfEntropy) ∧
    (1 ≤ ((Die 6 none).draw halfEntropy 0).1 ∧
      ((Die 6 none).draw halfEntropy 0).1 ≤ 6) :=
  ⟨⟨by decide, halfEntropy_valid⟩,
    die_draw_range 6 none (by decide) halfEntropy halfEntropy_valid 0⟩

theorem coin_draw_spec_witness :
    Entropy.Valid halfEntropy ∧
    (((Coin 1).draw halfEntropy 0).1 = "Heads" ∧
      ((Coin (-1)).draw halfEntropy 0).1 = "Tails" ∧
      (((Coin (1/2)).draw halfEntropy 0).1 = "Heads" ↔
        uniform (-1) 1 (halfEntropy 0) < 1/2) ∧
      (uniform (-1) 1 (halfEntropy 0) < 1/2 ↔ halfEntropy 0 < (1/2 + 1) / 2)) :=
  ⟨halfEntropy_valid, coin_draw_spec (1/2) halfEntropy halfEntropy_valid 0⟩

theorem counter_draw_range_witness :
    (∀ j, ((constSrc "c" (7 : ℕ)).draw halfEntropy j).1 = 7) ∧
    ((0 ≤ ((Counter (constSrc "c" (7 : ℕ)) 7 5).draw halfEntropy 0).1 ∧
        ((Counter (constSrc "c" (7 : ℕ)) 7 5).draw halfEntropy 0).1 ≤ 5) ∧
      ((∀ j, ((constSrc "c" (7 : ℕ)).draw halfEntropy j).1 = 7) →
        ((Counter (constSrc "c" (7 : ℕ)) 7 5).draw halfEntropy 0).1 = 5)) :=
  ⟨fun j => rfl,
    counter_draw_range String ℕ (constSrc "c" 7) 7 5 halfEntropy 0⟩

theorem counter_name_merge_witness :
    (constSrc "X" (0 : ℕ)).name = (constSrc "X" (1 : ℕ)).name ∧
    ((Counter (constSrc "X" (0 : ℕ)) 0 10).name = (constSrc "X" (0 : ℕ)).name ∧
      cellCount
          (Trial._add
            (Trial._add ([] : Dict ℕ (Dict String ℕ))
              (Counter (constSrc "X" (0 : ℕ)) 0 10).name 5)
            (Counter (constSrc "X" (1 : ℕ)) 1 10).name 5)
          5 (Counter (constSrc "X" (0 : ℕ)) 0 10).name =
        cellCount ([] : Dict ℕ (Dict String ℕ)) 5
          (Counter (constSrc "X" (0 : ℕ)) 0 10).name + 2) :=
  ⟨rfl, counter_name_merge String ℕ ℕ (constSrc "X" 0) (constSrc "X" 1) 0 1 10 10
    rfl ([] : Dict ℕ (Dict String ℕ)) 5⟩

theorem run_preserves_sources_witness :
    (UniformSelectionTrial.run halfEntropy
        { sources := [Die 6], results := Trial.init, rng := 0 } 3).sources = [Die 6] :=
  (run_preserves_sources ℕ ℕ halfEntropy
    { sources := [Die 6], results := Trial.init, rng := 0 } 3).1

unseal List.merge List.mergeSort in
theorem record_rows_positive_witness :
    (3 : ℕ) ∈ (dictsToTbl (Trial.record Trial.init
        [((10 : ℕ), (3 : ℕ)), (20, 3)])).2.1 ∧
    0 < ((dictsToTbl (Trial.record Trial.init
        [((10 : ℕ), (3 : ℕ)), (20, 3)])).1.getD
        (List.indexOf 3 (dictsToTbl (Trial.record Trial.init
          [((10 : ℕ), (3 : ℕ)), (20, 3)])).2.1) []).sum :=
  ⟨by decide, (record_rows_positive ℕ ℕ [(10, 3), (20, 3)]).2 3 (by decide)⟩

end Coins
